import Mathlib

/-!
Shallow embedding of the rust-i18n runtime lookup (generated by
`crates/macro/src/lib.rs`) and of the `cargo i18n` CLI export/sort
pipelines (`crates/cli/src/main.rs`).

Strings from the source are modelled as lists of characters; all source
strings of interest are ASCII, where character positions and Rust byte
positions coincide.
-/

/-- Source strings are modelled as lists of characters. -/
abbrev Str : Type := List Char

/-- Index of the last occurrence of a character (Rust `str::rfind`). -/
def rfindIdx (c : Char) (l : Str) : Option Nat :=
  (l.reverse.findIdx? (· = c)).map (fun i => l.length - 1 - i)

/-- Helper for `trim_end_matches("-x")`, working on the reversed list:
removes every leading `x-` pair (i.e. every trailing `-x` of the original). -/
def trimXRev : Str → Str
  | [] => []
  | [c] => [c]
  | c1 :: c2 :: rest => if c1 = 'x' ∧ c2 = '-' then trimXRev rest else c1 :: c2 :: rest

/-- Rust `str::trim_end_matches("-x")`: repeatedly removes a trailing `-x`. -/
def trimEndX (l : Str) : Str := (trimXRev l.reverse).reverse

/-- `_rust_i18n_lookup_fallback` from the generated runtime:
`locale.rfind('-').map(|n| locale[..n].trim_end_matches("-x"))`. -/
def rust_i18n_lookup_fallback (locale : Str) : Option Str :=
  (rfindIdx '-' locale).map (fun n => trimEndX (locale.take n))

lemma trimXRev_length_le (l : Str) : (trimXRev l).length ≤ l.length := by
  induction l using trimXRev.induct with
  | case1 => simp [trimXRev]
  | case2 c => simp [trimXRev]
  | case3 c1 c2 rest h ih =>
    simp only [trimXRev, if_pos h]
    simp only [List.length_cons]
    omega
  | case4 c1 c2 rest h => simp [trimXRev, h]

lemma trimEndX_length_le (l : Str) : (trimEndX l).length ≤ l.length := by
  have := trimXRev_length_le l.reverse
  simpa [trimEndX] using this

lemma rfindIdx_lt {c : Char} {l : Str} {n : Nat} (h : rfindIdx c l = some n) :
    n < l.length := by
  unfold rfindIdx at h
  cases hf : l.reverse.findIdx? (· = c) with
  | none => rw [hf] at h; simp at h
  | some i =>
    rw [hf] at h
    simp only [Option.map_some', Option.some.injEq] at h
    cases l with
    | nil => simp [List.findIdx?] at hf
    | cons a as =>
      subst h
      simp only [List.length_cons]
      omega

lemma lookup_fallback_shorter {l f : Str}
    (h : rust_i18n_lookup_fallback l = some f) : f.length < l.length := by
  unfold rust_i18n_lookup_fallback at h
  cases hr : rfindIdx '-' l with
  | none => rw [hr] at h; simp at h
  | some n =>
    rw [hr] at h
    simp only [Option.map_some', Option.some.injEq] at h
    subst h
    have hn := rfindIdx_lt hr
    have h1 : (trimEndX (l.take n)).length ≤ (l.take n).length := trimEndX_length_le _
    have h2 : (l.take n).length ≤ n := by simp [List.length_take]
    omega

/-- The structural fallback chain, computed with explicit fuel (the loop in
`_rust_i18n_try_translate` terminates because each step strictly shrinks the
locale, so `locale.length` fuel always suffices). -/
def fallbackChainFuel : Nat → Str → List Str
  | 0, _ => []
  | fuel + 1, locale =>
    match rust_i18n_lookup_fallback locale with
    | none => []
    | some f => f :: fallbackChainFuel fuel f

/-- The structural fallback chain walked by `_rust_i18n_try_translate`. -/
def fallbackChain (locale : Str) : List Str :=
  fallbackChainFuel locale.length locale

lemma lookup_fallback_nil : rust_i18n_lookup_fallback ([] : Str) = none := rfl

lemma fallbackChainFuel_congr :
    ∀ (n m : Nat) (l : Str), l.length ≤ n → l.length ≤ m →
      fallbackChainFuel n l = fallbackChainFuel m l := by
  intro n
  induction n with
  | zero =>
    intro m l hn _
    have hl : l = [] := by cases l <;> simp_all
    subst hl
    cases m with
    | zero => rfl
    | succ m => simp [fallbackChainFuel, lookup_fallback_nil]
  | succ n ih =>
    intro m l hn hm
    cases m with
    | zero =>
      have hl : l = [] := by cases l <;> simp_all
      subst hl
      simp [fallbackChainFuel, lookup_fallback_nil]
    | succ m =>
      simp only [fallbackChainFuel]
      cases hf : rust_i18n_lookup_fallback l with
      | none => rfl
      | some f =>
        have hlt := lookup_fallback_shorter hf
        show f :: fallbackChainFuel n f = f :: fallbackChainFuel m f
        rw [ih m f (by omega) (by omega)]

lemma fallbackChain_eq (l : Str) :
    fallbackChain l =
      match rust_i18n_lookup_fallback l with
      | none => []
      | some f => f :: fallbackChain f := by
  unfold fallbackChain
  cases hf : rust_i18n_lookup_fallback l with
  | none =>
    cases hl : l.length with
    | zero => rfl
    | succ k => simp [fallbackChainFuel, hf]
  | some f =>
    have hlt := lookup_fallback_shorter hf
    obtain ⟨k, hk⟩ : ∃ k, l.length = k + 1 := ⟨l.length - 1, by omega⟩
    rw [hk]
    simp only [fallbackChainFuel, hf]
    rw [fallbackChainFuel_congr k f.length f (by omega) (by omega)]

lemma fallbackChain_length_le_aux :
    ∀ (n : Nat) (l : Str), l.length ≤ n → (fallbackChain l).length ≤ l.length := by
  intro n
  induction n with
  | zero =>
    intro l hn
    have hl : l = [] := by cases l <;> simp_all
    subst hl
    simp [fallbackChain, fallbackChainFuel]
  | succ n ih =>
    intro l hn
    rw [fallbackChain_eq]
    cases hf : rust_i18n_lookup_fallback l with
    | none => simp
    | some f =>
      have hlt := lookup_fallback_shorter hf
      have := ih f (by omega)
      simp only [List.length_cons]
      omega

lemma fallbackChain_length_le (l : Str) : (fallbackChain l).length ≤ l.length :=
  fallbackChain_length_le_aux l.length l le_rfl

/-- The fallback-probing loop inside `_rust_i18n_try_translate`, with fuel:
`while let Some(fallback_locale) = lookup_fallback(current) { probe; advance }`. -/
def tryTranslateFuel (B : Str → Str → Option Str) (key : Str) :
    Nat → Str → Option Str
  | 0, _ => none
  | fuel + 1, current =>
    match rust_i18n_lookup_fallback current with
    | none => none
    | some f =>
      match B f key with
      | some v => some v
      | none => tryTranslateFuel B key fuel f

lemma tryTranslateFuel_eq_findSome? (B : Str → Str → Option Str) (key : Str) :
    ∀ (n : Nat) (cur : Str),
      tryTranslateFuel B key n cur
        = (fallbackChainFuel n cur).findSome? (fun c => B c key) := by
  intro n
  induction n with
  | zero => intro cur; rfl
  | succ n ih =>
    intro cur
    simp only [tryTranslateFuel, fallbackChainFuel]
    cases hf : rust_i18n_lookup_fallback cur with
    | none => rfl
    | some f =>
      simp only [List.findSome?]
      cases hb : B f key with
      | none => simpa using ih f
      | some v => simp

/-- `_rust_i18n_try_translate`: exact-locale probe, then the structural
fallback loop, then the declared fallback list, first hit wins. -/
def rust_i18n_try_translate (B : Str → Str → Option Str)
    (declaredFallback : Option (List Str)) (locale key : Str) : Option Str :=
  match B locale key with
  | some v => some v
  | none =>
    match tryTranslateFuel B key locale.length locale with
    | some v => some v
    | none =>
      match declaredFallback with
      | none => none
      | some fb => fb.findSome? (fun loc => B loc key)

/-- `_rust_i18n_translate`: fall back to a `locale.key` placeholder, or the
bare key when the locale is empty. -/
def rust_i18n_translate (B : Str → Str → Option Str)
    (declaredFallback : Option (List Str)) (locale key : Str) : Str :=
  (rust_i18n_try_translate B declaredFallback locale key).getD
    (if locale.isEmpty then key else locale ++ '.' :: key)

lemma fallbackChain_def (l : Str) :
    fallbackChainFuel l.length l = fallbackChain l := rfl

lemma try_translate_eq_findSome? (B : Str → Str → Option Str)
    (declared : Option (List Str)) (locale key : Str) :
    rust_i18n_try_translate B declared locale key
      = (locale :: (fallbackChain locale ++ declared.getD [])).findSome?
          (fun c => B c key) := by
  unfold rust_i18n_try_translate
  rw [List.findSome?_cons]
  cases hb : B locale key with
  | some v => rfl
  | none =>
    rw [List.findSome?_append,
      tryTranslateFuel_eq_findSome? B key locale.length locale, fallbackChain_def]
    cases hc : (fallbackChain locale).findSome? (fun c => B c key) with
    | some v => rfl
    | none =>
      cases declared with
      | none => rfl
      | some fb => rfl

/-- Claim C1: the runtime lookup probes the exact locale first, then the
structural fallback chain (repeatedly stripping the trailing `-`-delimited
subtag and trimming a trailing `-x` marker), then the declared fallback list
in author order, returning the first hit and `none` only when every probe
misses; the structural chain for `"zh-Hant-CN-x-priv"` is
`["zh-Hant-CN-x-priv", "zh-Hant-CN", "zh-Hant", "zh"]`. -/
theorem C1_translate_probe_order (B : Str → Str → Option Str)
    (declared : Option (List Str)) (locale key : Str) :
    rust_i18n_try_translate B declared locale key
      = (locale :: (fallbackChain locale ++ declared.getD [])).findSome?
          (fun c => B c key)
    ∧ (rust_i18n_try_translate B declared locale key = none ↔
        ∀ c ∈ locale :: (fallbackChain locale ++ declared.getD []), B c key = none)
    ∧ "zh-Hant-CN-x-priv".data :: fallbackChain "zh-Hant-CN-x-priv".data
        = ["zh-Hant-CN-x-priv".data, "zh-Hant-CN".data, "zh-Hant".data, "zh".data] := by
  refine ⟨try_translate_eq_findSome? B declared locale key, ?_, by decide⟩
  rw [try_translate_eq_findSome? B declared locale key]
  exact List.findSome?_eq_none_iff

/-- Claim C9: every successful `_rust_i18n_lookup_fallback` step yields a
strictly shorter locale, so the fallback loop runs at most `locale.length`
iterations (the chain it walks has at most that many elements). -/
theorem C9_fallback_terminates (l : Str) :
    (∀ f, rust_i18n_lookup_fallback l = some f → f.length < l.length)
    ∧ (fallbackChain l).length ≤ l.length :=
  ⟨fun _ h => lookup_fallback_shorter h, fallbackChain_length_le l⟩

/-- Concrete instantiation of `C9_fallback_terminates` at `"zh-Hant"`. -/
theorem C9_fallback_terminates_witness :
    ("zh".data : Str).length < ("zh-Hant".data : Str).length
    ∧ (fallbackChain "zh-Hant".data).length ≤ ("zh-Hant".data : Str).length :=
  ⟨(C9_fallback_terminates "zh-Hant".data).1 "zh".data (by decide),
   (C9_fallback_terminates "zh-Hant".data).2⟩

/-- Claim C4: when every probe misses, `_rust_i18n_translate` renders the
placeholder `locale ++ "." ++ key`, except that an empty locale yields the
key verbatim; when some probe hits, the hit is returned unchanged. -/
theorem C4_translate_or_default (B : Str → Str → Option Str)
    (declared : Option (List Str)) (locale key : Str) :
    (rust_i18n_try_translate B declared locale key = none →
      rust_i18n_translate B declared locale key
        = if locale = [] then key else locale ++ '.' :: key)
    ∧ (∀ v, rust_i18n_try_translate B declared locale key = some v →
        rust_i18n_translate B declared locale key = v) := by
  constructor
  · intro h
    unfold rust_i18n_translate
    rw [h]
    simp [List.isEmpty_iff]
  · intro v h
    unfold rust_i18n_translate
    rw [h]
    rfl

/-- Concrete instantiation of `C4_translate_or_default`: an always-missing
backend renders `"fr.hi"` for locale `"fr"`, and `"hi"` for the empty locale. -/
theorem C4_translate_or_default_witness :
    (rust_i18n_translate (fun _ _ => none) none "fr".data "hi".data
      = if ("fr".data : Str) = [] then "hi".data else "fr".data ++ '.' :: "hi".data)
    ∧ (rust_i18n_translate (fun _ _ => none) none [] "hi".data
      = if ([] : Str) = [] then "hi".data else [] ++ '.' :: "hi".data) :=
  ⟨(C4_translate_or_default (fun _ _ => none) none "fr".data "hi".data).1 (by decide),
   (C4_translate_or_default (fun _ _ => none) none [] "hi".data).1 (by decide)⟩

/-! ### CLI string helpers (`crates/cli/src/main.rs`) -/

/-- Whether `p` is an initial segment of `l`. -/
def leadsWith : Str → Str → Bool
  | [], _ => true
  | _ :: _, [] => false
  | a :: p, b :: l => a = b && leadsWith p l

/-- Substring containment (Rust `str::contains`). -/
def containsSub (needle : Str) : Str → Bool
  | [] => leadsWith needle []
  | c :: rest => leadsWith needle (c :: rest) || containsSub needle rest

/-- Whether `needle` is a final segment of `l` (Rust `str::ends_with`). -/
def endsWithL (needle l : Str) : Bool := leadsWith needle.reverse l.reverse

lemma leadsWith_iff (p : Str) : ∀ l, leadsWith p l = true ↔ ∃ t, l = p ++ t := by
  induction p with
  | nil => intro l; simp [leadsWith]
  | cons a p ih =>
    intro l
    cases l with
    | nil => simp [leadsWith]
    | cons b l' =>
      simp only [leadsWith, Bool.and_eq_true, decide_eq_true_eq, ih,
        List.cons_append, List.cons.injEq]
      constructor
      · rintro ⟨hab, t, ht⟩
        exact ⟨t, hab.symm, ht⟩
      · rintro ⟨t, hab, ht⟩
        exact ⟨hab.symm, t, ht⟩

lemma containsSub_iff (needle : Str) :
    ∀ hay, containsSub needle hay = true ↔ ∃ pre post, hay = pre ++ (needle ++ post) := by
  intro hay
  induction hay with
  | nil =>
    simp only [containsSub, leadsWith_iff]
    constructor
    · rintro ⟨t, ht⟩
      exact ⟨[], t, ht⟩
    · rintro ⟨pre, post, h⟩
      have h' := h.symm
      rw [List.append_eq_nil] at h'
      exact ⟨post, h'.2.symm⟩
  | cons c rest ih =>
    simp only [containsSub, Bool.or_eq_true, leadsWith_iff, ih]
    constructor
    · rintro (⟨t, ht⟩ | ⟨pre, post, h⟩)
      · exact ⟨[], t, by simp [ht]⟩
      · exact ⟨c :: pre, post, by simp [h]⟩
    · rintro ⟨pre, post, h⟩
      cases pre with
      | nil => exact Or.inl ⟨post, by simpa using h⟩
      | cons x xs =>
        simp only [List.cons_append, List.cons.injEq] at h
        exact Or.inr ⟨xs, post, h.2⟩

/-- Rust `str::trim` (ASCII whitespace model). -/
def trimChars (s : Str) : Str :=
  ((s.dropWhile Char.isWhitespace).reverse.dropWhile Char.isWhitespace).reverse

/-- `remove_quotes` from the CLI: computes slice bounds `start`/`end` and
returns `s[start..end]`; `none` models the Rust slice panic, which happens
exactly when `start > end`, i.e. when `s` is the single character `"`. -/
def remove_quotes (s : Str) : Option Str :=
  let start := if s.head? = some '"' then 1 else 0
  let e := if s.getLast? = some '"' then s.length - 1 else s.length
  if start ≤ e then some ((s.drop start).take (e - start)) else none

/-- Removal of one leading and then one trailing double quote, as the spec
words the non-panicking behaviour of `remove_quotes`. -/
def stripQuote (s : Str) : Str :=
  let s1 := if s.head? = some '"' then s.drop 1 else s
  if s1.getLast? = some '"' then s1.dropLast else s1

/-- First occurrence of `=>` (Rust `str::split_once("=>")`). -/
def splitArrow : Str → Option (Str × Str)
  | [] => none
  | '=' :: '>' :: rest => some ([], rest)
  | c :: rest => (splitArrow rest).map (fun p => (c :: p.1, p.2))

/-- `translate_value_parser` from the CLI (always returns `Ok` in Rust;
`none` here models a panic inside `remove_quotes`). -/
def translate_value_parse (s : Str) : Option (Str × Str) :=
  match splitArrow s with
  | some (key, msg) =>
    match remove_quotes (trimChars key), remove_quotes (trimChars msg) with
    | some k, some m => some (k, m)
    | _, _ => none
  | none => some (s, s)

lemma getLast?_drop_one {s : Str} (h : s.drop 1 ≠ []) :
    (s.drop 1).getLast? = s.getLast? := by
  cases s with
  | nil => simp at h
  | cons a t =>
    simp only [List.drop_succ_cons, List.drop_zero] at h ⊢
    cases t with
    | nil => simp at h
    | cons b u => exact (List.getLast?_cons_cons).symm

lemma remove_quotes_eq (s : Str) (h : s ≠ ['"']) :
    remove_quotes s = some (stripQuote s) := by
  unfold remove_quotes stripQuote
  by_cases c1 : s.head? = some '"'
  · have hs : s ≠ [] := by rintro rfl; simp at c1
    -- a leading quote together with `s ≠ ["\""]` forces length ≥ 2
    have hlen2 : 2 ≤ s.length := by
      rcases s with _ | ⟨a, _ | ⟨b, u⟩⟩
      · exact absurd rfl hs
      · exfalso
        simp only [List.head?_cons, Option.some.injEq] at c1
        subst c1
        exact h rfl
      · simp only [List.length_cons]
        omega
    have hd : s.drop 1 ≠ [] := by
      intro hnil
      have h1 := List.length_drop 1 s
      rw [hnil] at h1
      simp only [List.length_nil] at h1
      omega
    by_cases c2 : s.getLast? = some '"'
    · have hg : (s.drop 1).getLast? = some '"' := by
        rw [getLast?_drop_one hd]; exact c2
      simp only [if_pos c1, if_pos c2, if_pos hg]
      rw [if_pos (show 1 ≤ s.length - 1 by omega)]
      congr 1
      rw [List.dropLast_eq_take, List.length_drop]
    · have hgn : ¬((s.drop 1).getLast? = some '"') := by
        rw [getLast?_drop_one hd]; exact c2
      simp only [if_pos c1, if_neg c2, if_neg hgn]
      rw [if_pos (show 1 ≤ s.length by omega)]
      congr 1
      rw [show s.length - 1 = (s.drop 1).length from (List.length_drop 1 s).symm,
        List.take_length]
  · by_cases c2 : s.getLast? = some '"'
    · simp only [if_neg c1, if_pos c2]
      rw [if_pos (Nat.zero_le _)]
      congr 1
      simp only [List.drop_zero, Nat.sub_zero]
      rw [List.dropLast_eq_take]
    · simp only [if_neg c1, if_neg c2]
      rw [if_pos (Nat.zero_le _)]
      congr 1
      simp only [List.drop_zero, Nat.sub_zero]
      exact List.take_length s

/-- Claim C8 counterexample: on the input `" =>` the left side of the first
`=>` trims to a lone double quote and `remove_quotes` slices `[1..0]`,
which panics in Rust (modelled by `none`), so the value parsing function is
not total. -/
theorem C8_counterexample : translate_value_parse "\" =>".data = none := by decide

/-- Claim C8 (amended): the manual-translation value parsing function
returns `Ok` whenever neither side of the first `=>` trims to a lone double
quote: with no `=>` it returns `(s, s)`, otherwise the pair of the text
before and after the first `=>`, each trimmed of whitespace and stripped of
one leading and one trailing quote. -/
theorem C8_translate_value_total (s : Str) :
    (splitArrow s = none → translate_value_parse s = some (s, s))
    ∧ (∀ k m, splitArrow s = some (k, m) →
        trimChars k ≠ ['"'] → trimChars m ≠ ['"'] →
        translate_value_parse s
          = some (stripQuote (trimChars k), stripQuote (trimChars m))) := by
  constructor
  · intro h
    unfold translate_value_parse
    rw [h]
  · intro k m hsplit hk hm
    unfold translate_value_parse
    rw [hsplit]
    dsimp only
    rw [remove_quotes_eq _ hk, remove_quotes_eq _ hm]

/-- Concrete instantiation of `C8_translate_value_total` on `"a" => b` and
on an arrow-free input. -/
theorem C8_translate_value_total_witness :
    translate_value_parse "\"a\" => b".data
      = some (stripQuote (trimChars "\"a\" ".data), stripQuote (trimChars " b".data))
    ∧ translate_value_parse "hello".data = some ("hello".data, "hello".data) :=
  ⟨(C8_translate_value_total "\"a\" => b".data).2 "\"a\" ".data " b".data
      (by decide) (by decide) (by decide),
   (C8_translate_value_total "hello".data).1 (by decide)⟩

/-! ### Sort pipeline file handling -/

/-- A locale file path as matched by the sort pipeline's glob: directory
part, file stem, and extension. -/
structure SortEntry where
  dir : Str
  stem : Str
  ext : Str
deriving DecidableEq

/-- The display form of the path (`entry.display().to_string()`). -/
def SortEntry.display (e : SortEntry) : Str :=
  e.dir ++ '/' :: (e.stem ++ '.' :: e.ext)

/-- The skip test in `i18n_sort`:
`!args.inplace && entry.display().to_string().contains("-sorted")`. -/
def sortSkips (inplace : Bool) (e : SortEntry) : Bool :=
  !inplace && containsSub "-sorted".data e.display

/-- Output path selection in `i18n_sort`: in-place keeps the file, otherwise
`set_file_name("{stem}-sorted.{ext}")` names a sibling. -/
def sortOutPath (inplace : Bool) (e : SortEntry) : Str :=
  if inplace then e.display
  else e.dir ++ '/' :: ((e.stem ++ "-sorted".data) ++ '.' :: e.ext)

/-- The skip rule as the claim words it: the file's stem bears a `-sorted`
suffix. -/
def stemBearsSortedSuffix (e : SortEntry) : Bool := endsWithL "-sorted".data e.stem

/-- Claim C5 counterexample: with in-place off, the file
`locales/app-sorted-x.yml` is skipped by the code (its path contains
`-sorted`) although its stem does not bear the `-sorted` suffix, so the
skipped files are not exactly those bearing the suffix. -/
theorem C5_counterexample :
    sortSkips false ⟨"locales".data, "app-sorted-x".data, "yml".data⟩ = true
    ∧ stemBearsSortedSuffix ⟨"locales".data, "app-sorted-x".data, "yml".data⟩ = false := by
  decide

/-- Claim C5 (amended): with the in-place flag off, the output for each
processed file is the sibling `"{stem}-sorted.{ext}"`, and exactly those
input files whose displayed path contains the substring `-sorted` are
skipped (in particular every file bearing the `-sorted` stem suffix is
skipped); with the in-place flag on, no file is skipped and the original
path is rewritten. -/
theorem C5_sort_skip_output (inplace : Bool) (e : SortEntry) :
    (inplace = false →
      (sortSkips inplace e = true ↔ containsSub "-sorted".data e.display = true)
      ∧ sortOutPath inplace e = e.dir ++ '/' :: ((e.stem ++ "-sorted".data) ++ '.' :: e.ext))
    ∧ (inplace = true → sortSkips inplace e = false ∧ sortOutPath inplace e = e.display)
    ∧ (stemBearsSortedSuffix e = true → sortSkips false e = true) := by
  refine ⟨?_, ?_, ?_⟩
  · rintro rfl
    constructor
    · simp [sortSkips]
    · simp [sortOutPath]
  · rintro rfl
    constructor
    · simp [sortSkips]
    · simp [sortOutPath]
  · intro h
    unfold stemBearsSortedSuffix endsWithL at h
    rw [leadsWith_iff] at h
    obtain ⟨t, ht⟩ := h
    have hstem : e.stem = t.reverse ++ "-sorted".data := by
      have := congrArg List.reverse ht
      simpa using this
    have : containsSub "-sorted".data e.display = true := by
      rw [containsSub_iff]
      refine ⟨e.dir ++ '/' :: t.reverse, '.' :: e.ext, ?_⟩
      rw [SortEntry.display, hstem]
      simp
    simp [sortSkips, this]

/-- Concrete instantiation of `C5_sort_skip_output`. -/
theorem C5_sort_skip_output_witness :
    (sortSkips false ⟨"locales".data, "app".data, "yml".data⟩ = true ↔
      containsSub "-sorted".data
        (SortEntry.display ⟨"locales".data, "app".data, "yml".data⟩) = true)
    ∧ sortOutPath false ⟨"locales".data, "app".data, "yml".data⟩
        = "locales".data ++ '/' :: (("app".data ++ "-sorted".data) ++ '.' :: "yml".data)
    ∧ sortSkips false ⟨"locales".data, "app-sorted".data, "yml".data⟩ = true :=
  ⟨((C5_sort_skip_output false ⟨"locales".data, "app".data, "yml".data⟩).1 rfl).1,
   ((C5_sort_skip_output false ⟨"locales".data, "app".data, "yml".data⟩).1 rfl).2,
   (C5_sort_skip_output false ⟨"locales".data, "app-sorted".data, "yml".data⟩).2.2
     (by decide)⟩

/-! ### Ordered maps (`IndexMap`) and the locale store -/

/-- `IndexMap` insertion: update the first matching key in place, else append. -/
def imInsert {α : Type} : List (Str × α) → Str → α → List (Str × α)
  | [], k, v => [(k, v)]
  | p :: rest, k, v => if p.1 = k then (k, v) :: rest else p :: imInsert rest k v

/-- Map lookup, first matching entry (`HashMap`/`IndexMap` `get`). -/
def imLookup {α : Type} (m : List (Str × α)) (k : Str) : Option α :=
  (m.find? (fun p => decide (p.1 = k))).map (·.2)

/-- One locale's key → translation table. -/
abbrev LocaleTable := List (Str × Str)

/-- A loaded locale store: locale → table, as produced by `load_locales`. -/
abbrev LocaleStore := List (Str × LocaleTable)

/-- `tmp_trs.get(locale).and_then(|m| m.get(key))`. -/
def storeLookup (trs : LocaleStore) (locale key : Str) : Option Str :=
  (imLookup trs locale).bind (fun m => imLookup m key)

/-- Ascending sort applied after collecting a `HashSet` into a `Vec`. -/
def sortStr (l : List Str) : List Str := List.insertionSort (· ≤ ·) l

lemma mem_sortStr {x : Str} {l : List Str} : x ∈ sortStr l ↔ x ∈ l :=
  (List.perm_insertionSort (· ≤ ·) l).mem_iff

lemma sortStr_sorted (l : List Str) : List.Sorted (· ≤ ·) (sortStr l) :=
  List.sorted_insertionSort (· ≤ ·) l

lemma sortStr_nodup {l : List Str} (h : l.Nodup) : (sortStr l).Nodup :=
  ((List.perm_insertionSort (· ≤ ·) l).nodup_iff).mpr h

lemma imLookup_cons {α : Type} (p : Str × α) (m : List (Str × α)) (k : Str) :
    imLookup (p :: m) k = if p.1 = k then some p.2 else imLookup m k := by
  by_cases h : p.1 = k <;> simp [imLookup, List.find?, h]

lemma imLookup_imInsert {α : Type} (m : List (Str × α)) (k : Str) (v : α) (x : Str) :
    imLookup (imInsert m k v) x = if k = x then some v else imLookup m x := by
  induction m with
  | nil => by_cases h : k = x <;> simp [imInsert, imLookup_cons, h]
  | cons p rest ih =>
    unfold imInsert
    by_cases hp : p.1 = k
    · rw [if_pos hp, imLookup_cons, imLookup_cons, hp]
      by_cases hkx : k = x <;> simp [hkx]
    · rw [if_neg hp, imLookup_cons, ih]
      by_cases hx : p.1 = x
      · have : ¬(k = x) := fun hkx => hp (by rw [hkx, hx])
        rw [if_pos hx, if_neg this, imLookup_cons, if_pos hx]
      · rw [if_neg hx]
        by_cases hkx : k = x
        · rw [if_pos hkx, if_pos hkx]
        · rw [if_neg hkx, if_neg hkx, imLookup_cons, if_neg hx]

lemma imLookup_foldl_insert {α : Type} (f : Str → α) :
    ∀ (ks : List Str) (acc : List (Str × α)) (x : Str),
      imLookup (ks.foldl (fun m k => imInsert m k (f k)) acc) x
        = if x ∈ ks then some (f x) else imLookup acc x := by
  intro ks
  induction ks with
  | nil => intro acc x; simp
  | cons k ks ih =>
    intro acc x
    rw [List.foldl_cons, ih]
    by_cases hx : x ∈ ks
    · rw [if_pos hx, if_pos (List.mem_cons_of_mem k hx)]
    · rw [if_neg hx, imLookup_imInsert]
      by_cases hk : k = x
      · subst hk
        rw [if_pos rfl, if_pos (List.mem_cons_self k ks)]
      · rw [if_neg hk, if_neg (by
          intro hmem
          rcases List.mem_cons.mp hmem with h | h
          · exact hk h.symm
          · exact hx h)]

lemma imLookup_foldl_insertOpt (g : Str → Option Str) :
    ∀ (ls : List Str) (acc : LocaleTable) (x : Str),
      imLookup (ls.foldl (fun obj l =>
          match g l with
          | some v => imInsert obj l v
          | none => obj) acc) x
        = match g x with
          | some v => if x ∈ ls then some v else imLookup acc x
          | none => imLookup acc x := by
  intro ls
  induction ls with
  | nil =>
    intro acc x
    simp only [List.foldl_nil]
    cases g x <;> simp
  | cons l ls ih =>
    intro acc x
    rw [List.foldl_cons, ih]
    by_cases hlx : l = x
    · subst hlx
      cases hg : g l with
      | some v =>
        simp only [hg]
        rw [imLookup_imInsert, if_pos rfl]
        by_cases hmem : l ∈ ls
        · rw [if_pos hmem, if_pos (List.mem_cons_of_mem l hmem)]
        · rw [if_neg hmem, if_pos (List.mem_cons_self l ls)]
      | none => simp only [hg]
    · cases hg : g x with
      | some v =>
        cases hgl : g l with
        | some w =>
          simp only [hgl]
          rw [imLookup_imInsert, if_neg hlx]
          by_cases hmem : x ∈ ls
          · rw [if_pos hmem, if_pos (List.mem_cons_of_mem l hmem)]
          · rw [if_neg hmem, if_neg (by
              intro hc
              rcases List.mem_cons.mp hc with h | h
              · exact hlx h.symm
              · exact hmem h)]
        | none =>
          simp only [hgl]
          by_cases hmem : x ∈ ls
          · rw [if_pos hmem, if_pos (List.mem_cons_of_mem l hmem)]
          · rw [if_neg hmem, if_neg (by
              intro hc
              rcases List.mem_cons.mp hc with h | h
              · exact hlx h.symm
              · exact hmem h)]
      | none =>
        cases hgl : g l with
        | some w =>
          simp only [hgl]
          rw [imLookup_imInsert, if_neg hlx]
        | none => simp only [hgl]

lemma imLookup_foldl_insertOpt_nil (g : Str → Option Str) (ls : List Str) (x : Str) :
    imLookup (ls.foldl (fun obj l =>
        match g l with
        | some v => imInsert obj l v
        | none => obj) []) x
      = if x ∈ ls then g x else none := by
  rw [imLookup_foldl_insertOpt]
  cases hg : g x with
  | some v => rfl
  | none => simp [imLookup]

/-! ### Export locale filter (`filter_locales`) -/

/-- Whether a token is a `+`/`!` modifier (the partition predicate in
`filter_locales`, negated). -/
def isModTok (s : Str) : Bool := leadsWith "+".data s || leadsWith "!".data s

/-- One step of the modifier loop in `filter_locales`: `split_at(1)`, then
`!` removes the named locale and `+` inserts it. -/
def filterStep (acc : List Str) (tok : Str) : List Str :=
  if tok.take 1 = "!".data then acc.filter (fun s => decide (s ≠ tok.drop 1))
  else if tok.take 1 = "+".data then
    (if tok.drop 1 ∈ acc then acc else acc ++ [tok.drop 1])
  else acc

/-- `filter_locales` from the CLI: bare tokens narrow the candidate set to
its members among them, then the modifiers are applied in the order given. -/
def filter_locales (avail : List Str) (tokens : List Str) : List Str :=
  let explicitToks := tokens.filter (fun s => !(isModTok s))
  let modifiers := tokens.filter (fun s => isModTok s)
  let base := if explicitToks.isEmpty then avail
    else avail.filter (fun s => decide (s ∈ explicitToks))
  modifiers.foldl filterStep base

/-- The export pipeline's locale set (`i18n_export`): config-declared and
store-observed locales, filtered, then sorted ascending. -/
def exportLocales (cfgLocales : List Str) (trs : LocaleStore) (tokens : List Str) :
    List Str :=
  sortStr (filter_locales ((cfgLocales ++ trs.map (·.1)).dedup) tokens)

/-- The last `+`/`!` token naming `x` decides its membership. -/
def lastModFor (x : Str) : List Str → Option Str
  | [] => none
  | tok :: rest =>
    match lastModFor x rest with
    | some t => some t
    | none => if tok.drop 1 = x then some tok else none

lemma filterStep_mem (acc : List Str) (tok x : Str) (h : isModTok tok = true) :
    (x ∈ filterStep acc tok
      ↔ (if tok.drop 1 = x then tok.take 1 = "+".data else x ∈ acc)) := by
  rcases tok with _ | ⟨c, t⟩
  · simp [isModTok, leadsWith] at h
  · have hc : c = '+' ∨ c = '!' := by
      simp only [isModTok, Bool.or_eq_true] at h
      rcases h with h | h
      · left
        cases hlw : leadsWith "+".data (c :: t)
        · rw [hlw] at h; exact absurd h (by simp)
        · rw [leadsWith_iff] at hlw
          obtain ⟨u, hu⟩ := hlw
          simpa using congrArg List.head? hu
      · right
        cases hlw : leadsWith "!".data (c :: t)
        · rw [hlw] at h; exact absurd h (by simp)
        · rw [leadsWith_iff] at hlw
          obtain ⟨u, hu⟩ := hlw
          simpa using congrArg List.head? hu
    have htake : (c :: t : Str).take 1 = [c] := rfl
    have hdrop : (c :: t : Str).drop 1 = t := rfl
    unfold filterStep
    rw [htake, hdrop]
    rcases hc with rfl | rfl
    · rw [if_neg (by decide), if_pos (by decide)]
      by_cases htx : t = x
      · subst htx
        rw [if_pos rfl]
        by_cases hmem : t ∈ acc
        · simp [hmem]
        · simp [hmem]
      · rw [if_neg htx]
        by_cases hmem : t ∈ acc
        · simp [hmem]
        · rw [if_neg hmem]
          simp only [List.mem_append, List.mem_singleton]
          constructor
          · rintro (hx | rfl)
            · exact hx
            · exact absurd rfl htx
          · exact Or.inl
    · rw [if_pos (by decide)]
      by_cases htx : t = x
      · subst htx
        rw [if_pos rfl]
        simp [List.mem_filter]
      · rw [if_neg htx]
        simp only [List.mem_filter, decide_eq_true_eq]
        constructor
        · exact fun hx => hx.1
        · exact fun hx => ⟨hx, fun hxt => htx hxt.symm⟩

lemma filter_fold_mem (x : Str) :
    ∀ (mods : List Str) (acc : List Str),
      (∀ tok ∈ mods, isModTok tok = true) →
      (x ∈ mods.foldl filterStep acc ↔
        match lastModFor x mods with
        | some t => t.take 1 = "+".data
        | none => x ∈ acc) := by
  intro mods
  induction mods with
  | nil => intro acc _; rfl
  | cons tok mods ih =>
    intro acc hmods
    rw [List.foldl_cons]
    rw [ih (filterStep acc tok) (fun t ht => hmods t (List.mem_cons_of_mem tok ht))]
    show _ ↔ (match (match lastModFor x mods with
      | some t => some t
      | none => if tok.drop 1 = x then some tok else none) with
      | some t => t.take 1 = "+".data
      | none => x ∈ acc)
    cases hlast : lastModFor x mods with
    | some t => rfl
    | none =>
      rw [filterStep_mem acc tok x (hmods tok (List.mem_cons_self tok mods))]
      by_cases htx : tok.drop 1 = x
      · rw [if_pos htx, if_pos htx]
      · rw [if_neg htx, if_neg htx]

lemma filterStep_nodup {acc : List Str} (tok : Str) (h : acc.Nodup) :
    (filterStep acc tok).Nodup := by
  unfold filterStep
  by_cases h1 : tok.take 1 = "!".data
  · rw [if_pos h1]
    exact h.filter _
  · rw [if_neg h1]
    by_cases h2 : tok.take 1 = "+".data
    · rw [if_pos h2]
      by_cases hmem : tok.drop 1 ∈ acc
      · rw [if_pos hmem]; exact h
      · rw [if_neg hmem]
        rw [List.nodup_append]
        exact ⟨h, List.nodup_singleton _, by
          intro a ha hb
          rw [List.mem_singleton] at hb
          subst hb
          exact hmem ha⟩
    · rw [if_neg h2]; exact h

lemma filter_fold_nodup :
    ∀ (mods : List Str) (acc : List Str), acc.Nodup →
      (mods.foldl filterStep acc).Nodup := by
  intro mods
  induction mods with
  | nil => intro acc h; exact h
  | cons tok mods ih =>
    intro acc h
    rw [List.foldl_cons]
    exact ih _ (filterStep_nodup tok h)

lemma filter_locales_mem (avail tokens : List Str) (x : Str) :
    x ∈ filter_locales avail tokens ↔
      match lastModFor x (tokens.filter (fun s => isModTok s)) with
      | some t => t.take 1 = "+".data
      | none =>
        x ∈ avail ∧ ((tokens.filter (fun s => !(isModTok s))) ≠ [] →
          x ∈ tokens.filter (fun s => !(isModTok s))) := by
  show x ∈ (tokens.filter (fun s => isModTok s)).foldl filterStep
      (if (tokens.filter (fun s => !(isModTok s))).isEmpty then avail
       else avail.filter (fun s => decide (s ∈ tokens.filter (fun s => !(isModTok s))))) ↔ _
  rw [filter_fold_mem x _ _ (fun tok ht => (List.mem_filter.mp ht).2)]
  cases lastModFor x (tokens.filter (fun s => isModTok s)) with
  | some t => rfl
  | none =>
    by_cases hemp : (tokens.filter (fun s => !(isModTok s))) = []
    · rw [hemp]
      simp
    · rw [if_neg (by simpa [List.isEmpty_iff] using hemp)]
      simp [List.mem_filter, hemp]

lemma filter_locales_nodup (avail tokens : List Str) (h : avail.Nodup) :
    (filter_locales avail tokens).Nodup := by
  show ((tokens.filter (fun s => isModTok s)).foldl filterStep
      (if (tokens.filter (fun s => !(isModTok s))).isEmpty then avail
       else avail.filter (fun s => decide (s ∈ tokens.filter (fun s => !(isModTok s)))))).Nodup
  refine filter_fold_nodup _ _ ?_
  by_cases hemp : (tokens.filter (fun s => !(isModTok s))).isEmpty
  · rw [if_pos hemp]; exact h
  · rw [if_neg hemp]; exact h.filter _

/-- The export locale filter exactly as claim C2 words it: bare tokens
replace the candidate set outright, then every `+` token force-includes,
then every `!` token excludes, regardless of token order. -/
def claimExportLocales (cfg : List Str) (trs : LocaleStore) (tokens : List Str) :
    List Str :=
  let avail := (cfg ++ trs.map (·.1)).dedup
  let bare := tokens.filter (fun s => !(isModTok s))
  let plus := (tokens.filter (fun s => leadsWith "+".data s)).map (fun s => s.drop 1)
  let bang := (tokens.filter (fun s => leadsWith "!".data s)).map (fun s => s.drop 1)
  let base := if bare.isEmpty then avail else bare
  sortStr (((base ++ plus).dedup).filter (fun s => decide (s ∉ bang)))

/-- Claim C2 counterexample: on a store and config with locales
`{en, es, fr}` and the filter `["de", "!fr", "+fr"]`, the code narrows to
the members of the set among the bare tokens (yielding `∅`, not `{de}`) and
then applies the modifiers in token order (so the later `+fr` overrides the
earlier `!fr`), producing `["fr"]`, while the claim's reading produces
`["de"]`. -/
theorem C2_counterexample :
    exportLocales ["en".data, "es".data, "fr".data]
        [("en".data, []), ("es".data, []), ("fr".data, [])]
        ["de".data, "!fr".data, "+fr".data]
      ≠ claimExportLocales ["en".data, "es".data, "fr".data]
        [("en".data, []), ("es".data, []), ("fr".data, [])]
        ["de".data, "!fr".data, "+fr".data] := by decide

/-- Claim C2 (amended): the export candidate set is the union of
config-declared and store-observed locales; if any bare token is present the
set is narrowed to its members that are bare tokens; then the `+`/`!`
modifier tokens are applied in the order given (`+` inserts, `!` removes, so
for each locale the last modifier naming it decides its membership); the
result is the ascending-sorted, duplicate-free set, and the claim's own
example `{en, es, fr}` with `["en", "+de"]` yields `["de", "en"]`. -/
theorem C2_export_locale_filter (cfg : List Str) (trs : LocaleStore)
    (tokens : List Str) :
    List.Sorted (· ≤ ·) (exportLocales cfg trs tokens)
    ∧ (exportLocales cfg trs tokens).Nodup
    ∧ (∀ x, x ∈ exportLocales cfg trs tokens ↔
        (match lastModFor x (tokens.filter (fun s => isModTok s)) with
         | some t => t.take 1 = "+".data
         | none =>
           (x ∈ cfg ∨ ∃ p ∈ trs, p.1 = x)
           ∧ ((tokens.filter (fun s => !(isModTok s))) ≠ [] →
              x ∈ tokens.filter (fun s => !(isModTok s)))))
    ∧ exportLocales ["en".data, "es".data, "fr".data]
        [("en".data, []), ("es".data, []), ("fr".data, [])]
        ["en".data, "+de".data]
      = ["de".data, "en".data] := by
  refine ⟨sortStr_sorted _,
    sortStr_nodup (filter_locales_nodup _ _ (List.nodup_dedup _)), ?_, by decide⟩
  intro x
  unfold exportLocales
  rw [mem_sortStr, filter_locales_mem]
  cases lastModFor x (tokens.filter (fun s => isModTok s)) with
  | some t => rfl
  | none =>
    rw [and_congr_left_iff]
    intro _
    rw [List.mem_dedup, List.mem_append, List.mem_map]

/-- Concrete instantiation of `C2_export_locale_filter`. -/
theorem C2_export_locale_filter_witness :
    (exportLocales ["en".data, "es".data, "fr".data]
        [("en".data, []), ("es".data, []), ("fr".data, [])]
        ["en".data, "+de".data]).Nodup
    ∧ exportLocales ["en".data, "es".data, "fr".data]
        [("en".data, []), ("es".data, []), ("fr".data, [])]
        ["en".data, "+de".data]
      = ["de".data, "en".data] :=
  ⟨(C2_export_locale_filter ["en".data, "es".data, "fr".data]
      [("en".data, []), ("es".data, []), ("fr".data, [])]
      ["en".data, "+de".data]).2.1,
   (C2_export_locale_filter ["en".data, "es".data, "fr".data]
      [("en".data, []), ("es".data, []), ("fr".data, [])]
      ["en".data, "+de".data]).2.2.2⟩

/-! ### Export pipeline: missing-value policy and exported matrix -/

/-- The `--missed` behaviour flag of `cargo i18n export`. -/
inductive MissedBehavior
  | Default
  | Empty
deriving DecidableEq

/-- Cell computation in `i18n_export`'s inner loop: the locale's own
translation, else the default locale's (policy `default`, empty if that is
also absent), else the empty string (policy `empty`). -/
def exportCell (trs : LocaleStore) (defaultLocale : Str) (missed : MissedBehavior)
    (locale key : Str) : Str :=
  match storeLookup trs locale key, missed with
  | some msg, _ => msg
  | none, .Default => (storeLookup trs defaultLocale key).getD []
  | none, .Empty => []

/-- The nested `IndexMap` built by `i18n_export`: for each key a row mapping
each exported locale to its cell value. -/
def exportTable (trs : LocaleStore) (defaultLocale : Str) (missed : MissedBehavior)
    (locales keys : List Str) : List (Str × LocaleTable) :=
  keys.foldl (fun acc key =>
    imInsert acc key (locales.foldl (fun obj locale =>
      imInsert obj locale (exportCell trs defaultLocale missed locale key)) [])) []

/-- Claim C3: every exported cell is the locale's own translation when
present; otherwise under policy `default` it is the default locale's
translation (empty when that is also absent), and under policy `empty` it is
the empty string. -/
theorem C3_export_missing_cell (trs : LocaleStore) (defaultLocale : Str)
    (missed : MissedBehavior) (locales keys : List Str) (locale key : Str)
    (hk : key ∈ keys) (hl : locale ∈ locales) :
    (imLookup (exportTable trs defaultLocale missed locales keys) key).bind
        (fun row => imLookup row locale)
      = some (match storeLookup trs locale key, missed with
          | some msg, _ => msg
          | none, .Default => (storeLookup trs defaultLocale key).getD []
          | none, .Empty => []) := by
  unfold exportTable
  rw [imLookup_foldl_insert (fun k => locales.foldl (fun obj l =>
    imInsert obj l (exportCell trs defaultLocale missed l k)) []) keys [] key]
  rw [if_pos hk]
  show imLookup (locales.foldl (fun obj l =>
    imInsert obj l (exportCell trs defaultLocale missed l key)) []) locale = _
  rw [imLookup_foldl_insert (fun l => exportCell trs defaultLocale missed l key)
    locales [] locale]
  rw [if_pos hl]
  rfl

/-- Concrete instantiation of `C3_export_missing_cell`: the claim's own
example, key `hello` with `en = "Hello"` and no `es` entry. -/
theorem C3_export_missing_cell_witness :
    (imLookup (exportTable [("en".data, [("hello".data, "Hello".data)])] "en".data
        MissedBehavior.Default ["en".data, "es".data] ["hello".data]) "hello".data).bind
        (fun row => imLookup row "es".data)
      = some "Hello".data
    ∧ (imLookup (exportTable [("en".data, [("hello".data, "Hello".data)])] "en".data
        MissedBehavior.Empty ["en".data, "es".data] ["hello".data]) "hello".data).bind
        (fun row => imLookup row "es".data)
      = some [] :=
  ⟨(C3_export_missing_cell [("en".data, [("hello".data, "Hello".data)])] "en".data
      MissedBehavior.Default ["en".data, "es".data] ["hello".data] "es".data "hello".data
      (by decide) (by decide)).trans (by decide),
   (C3_export_missing_cell [("en".data, [("hello".data, "Hello".data)])] "en".data
      MissedBehavior.Empty ["en".data, "es".data] ["hello".data] "es".data "hello".data
      (by decide) (by decide)).trans (by decide)⟩

/-! ### Serialization format dispatch (`convert_text`) -/

/-- The serialization formats supported by `convert_text`. -/
inductive ExportFmt
  | csv
  | json
  | yaml
  | toml
deriving DecidableEq

/-- A serialized document: format tag plus table content (the actual
CSV/JSON/YAML/TOML codecs are external collaborators). -/
structure OutDoc where
  fmt : ExportFmt
  content : List (Str × LocaleTable)
deriving DecidableEq

/-- `convert_text` from the CLI: dispatch on the format string, error on
anything unrecognized. -/
def convert_text (trs : List (Str × LocaleTable)) (format : Str) : Except Str OutDoc :=
  if format = "csv".data then .ok ⟨.csv, trs⟩
  else if format = "json".data then .ok ⟨.json, trs⟩
  else if format = "yaml".data ∨ format = "yml".data then .ok ⟨.yaml, trs⟩
  else if format = "toml".data then .ok ⟨.toml, trs⟩
  else .error ("unexpected file format: ".data ++ format)

/-- The format, if any, that `convert_text` selects for an extension. -/
def fmtOfExt (ext : Str) : Option ExportFmt :=
  if ext = "csv".data then some .csv
  else if ext = "json".data then some .json
  else if ext = "yaml".data ∨ ext = "yml".data then some .yaml
  else if ext = "toml".data then some .toml
  else none

/-- The final path component (Rust `Path::file_name`). -/
def fileNameOf (path : Str) : Str :=
  match rfindIdx '/' path with
  | none => path
  | some n => path.drop (n + 1)

/-- Rust `Path::extension`: the part of the file name after its final `.`;
`none` when there is no `.`, or when the only `.` is the leading character. -/
def extensionOf (path : Str) : Option Str :=
  match rfindIdx '.' (fileNameOf path) with
  | none => none
  | some 0 => none
  | some n => some ((fileNameOf path).drop (n + 1))

/-- The tail of `i18n_export`: take the output path's extension (erroring
when absent), convert, and only then write; the returned pair is the single
file write performed. -/
def i18n_export_write (trs : List (Str × LocaleTable)) (output : Str) :
    Except Str (Str × OutDoc) :=
  match extensionOf output with
  | none => .error "unexpected file format".data
  | some ext => (convert_text trs ext).map (fun doc => (output, doc))

lemma convert_text_eq (trs : List (Str × LocaleTable)) (ext : Str) :
    convert_text trs ext
      = match fmtOfExt ext with
        | some f => .ok ⟨f, trs⟩
        | none => .error ("unexpected file format: ".data ++ ext) := by
  unfold convert_text fmtOfExt
  split_ifs <;> rfl

lemma fmtOfExt_none_iff (ext : Str) :
    fmtOfExt ext = none ↔
      ext ∉ ["csv".data, "json".data, "yaml".data, "yml".data, "toml".data] := by
  unfold fmtOfExt
  split_ifs with h1 h2 h3 h4
  · subst h1; decide
  · subst h2; decide
  · rcases h3 with h3 | h3
    · subst h3; decide
    · subst h3; decide
  · subst h4; decide
  · constructor
    · intro _
      simp only [List.mem_cons, not_or]
      refine ⟨h1, h2, ?_, ?_, h4, ?_⟩
      · intro hc; exact h3 (Or.inl hc)
      · intro hc; exact h3 (Or.inr hc)
      · simp
    · intro _; rfl

/-- Claim C7: the export serialization format is selected solely by the
output file's extension (`csv`, `json`, `yaml`/`yml`, `toml`); a missing or
unrecognized extension is a hard error and no file write is produced. -/
theorem C7_export_format (trs : List (Str × LocaleTable)) (output : Str) :
    ((∃ e, i18n_export_write trs output = .error e) ↔
      (extensionOf output = none
        ∨ ∃ ext, extensionOf output = some ext ∧ fmtOfExt ext = none))
    ∧ (∀ ext, fmtOfExt ext = none ↔
        ext ∉ ["csv".data, "json".data, "yaml".data, "yml".data, "toml".data])
    ∧ (∀ ext f, extensionOf output = some ext → fmtOfExt ext = some f →
        i18n_export_write trs output = .ok (output, ⟨f, trs⟩)) := by
  refine ⟨?_, fmtOfExt_none_iff, ?_⟩
  · unfold i18n_export_write
    cases hx : extensionOf output with
    | none => simp
    | some ext =>
      dsimp only
      rw [convert_text_eq]
      cases hf : fmtOfExt ext with
      | some f => simp [Except.map, hf]
      | none => simp [Except.map, hf]
  · intro ext f hext hf
    unfold i18n_export_write
    rw [hext]
    dsimp only
    rw [convert_text_eq, hf]
    rfl

/-- Concrete instantiation of `C7_export_format` at the default output path
`exported.csv` (recognized) alongside the theorem's error characterization. -/
theorem C7_export_format_witness :
    i18n_export_write [] "exported.csv".data
      = .ok ("exported.csv".data, ⟨ExportFmt.csv, []⟩) :=
  (C7_export_format [] "exported.csv".data).2.2 "csv".data ExportFmt.csv
    (by decide) (by decide)

/-! ### Sort pipeline: orderings and rebuilt table -/

/-- The locale ordering computed by `i18n_sort`: config-declared and
file-observed locales, deduplicated and sorted ascending. -/
def sortedLocalesOf (cfg : List Str) (trs : LocaleStore) : List Str :=
  sortStr ((cfg ++ trs.map (·.1)).dedup)

/-- The union of keys across a file's locales. -/
def keyUnionOf (trs : LocaleStore) : List Str :=
  (trs.flatMap (fun p => p.2.map (·.1))).dedup

/-- The key ordering computed by `i18n_sort`. -/
def sortedKeysOf (trs : LocaleStore) : List Str := sortStr (keyUnionOf trs)

/-- Both orderings, reversed when the `--reverse` flag is set. -/
def sortOrders (cfg : List Str) (trs : LocaleStore) (rev : Bool) :
    List Str × List Str :=
  if rev then ((sortedLocalesOf cfg trs).reverse, (sortedKeysOf trs).reverse)
  else (sortedLocalesOf cfg trs, sortedKeysOf trs)

/-- The rebuilt table in `i18n_sort`: for each ordered key, each ordered
locale's entry is inserted only when the loaded file has it. -/
def sortRebuild (trs : LocaleStore) (locales keys : List Str) :
    List (Str × LocaleTable) :=
  keys.foldl (fun acc key =>
    imInsert acc key (locales.foldl (fun obj locale =>
      match storeLookup trs locale key with
      | some msg => imInsert obj locale msg
      | none => obj) [])) []

/-- One file of `i18n_sort` after loading: rebuild in sorted order and
reserialize with the source file's own extension. -/
def i18n_sort_step (cfg : List Str) (rev inplace : Bool) (e : SortEntry)
    (trs : LocaleStore) : Except Str (Str × OutDoc) :=
  (convert_text (sortRebuild trs (sortOrders cfg trs rev).1 (sortOrders cfg trs rev).2)
    e.ext).map (fun doc => (sortOutPath inplace e, doc))

lemma mem_sortedLocalesOf {cfg : List Str} {trs : LocaleStore} {x : Str} :
    x ∈ sortedLocalesOf cfg trs ↔ x ∈ cfg ∨ ∃ p ∈ trs, p.1 = x := by
  unfold sortedLocalesOf
  rw [mem_sortStr, List.mem_dedup, List.mem_append, List.mem_map]

lemma mem_sortedKeysOf {trs : LocaleStore} {x : Str} :
    x ∈ sortedKeysOf trs ↔ ∃ p ∈ trs, ∃ q ∈ p.2, q.1 = x := by
  unfold sortedKeysOf keyUnionOf
  rw [mem_sortStr, List.mem_dedup, List.mem_flatMap]
  constructor
  · rintro ⟨p, hp, hq⟩
    rw [List.mem_map] at hq
    exact ⟨p, hp, hq⟩
  · rintro ⟨p, hp, hq⟩
    exact ⟨p, hp, List.mem_map.mpr hq⟩

lemma imLookup_some_elim {α : Type} {m : List (Str × α)} {k : Str} {v : α}
    (h : imLookup m k = some v) : ∃ p, p ∈ m ∧ p.1 = k ∧ p.2 = v := by
  unfold imLookup at h
  cases hf : m.find? (fun p => decide (p.1 = k)) with
  | none => rw [hf] at h; simp at h
  | some p =>
    rw [hf] at h
    simp only [Option.map_some', Option.some.injEq] at h
    exact ⟨p, List.mem_of_find?_eq_some hf, by simpa using List.find?_some hf, h⟩

lemma sortRebuild_lookup (trs : LocaleStore) (locales keys : List Str)
    (key locale : Str)
    (hl : ∀ p ∈ trs, p.1 ∈ locales)
    (hk : ∀ p ∈ trs, ∀ q ∈ p.2, q.1 ∈ keys) :
    (imLookup (sortRebuild trs locales keys) key).bind (fun row => imLookup row locale)
      = storeLookup trs locale key := by
  unfold sortRebuild
  rw [imLookup_foldl_insert (fun k => locales.foldl (fun obj l =>
    match storeLookup trs l k with
    | some msg => imInsert obj l msg
    | none => obj) []) keys [] key]
  by_cases hkmem : key ∈ keys
  · rw [if_pos hkmem]
    show imLookup (locales.foldl (fun obj l =>
      match storeLookup trs l key with
      | some msg => imInsert obj l msg
      | none => obj) []) locale = _
    rw [imLookup_foldl_insertOpt_nil (fun l => storeLookup trs l key) locales locale]
    by_cases hlmem : locale ∈ locales
    · rw [if_pos hlmem]
    · rw [if_neg hlmem]
      unfold storeLookup
      cases him : imLookup trs locale with
      | none => rfl
      | some m =>
        exfalso
        obtain ⟨p, hp, hp1, _⟩ := imLookup_some_elim him
        exact hlmem (hp1 ▸ hl p hp)
  · rw [if_neg hkmem]
    show (none : Option LocaleTable).bind (fun row => imLookup row locale) = _
    unfold storeLookup
    cases him : imLookup trs locale with
    | none => rfl
    | some m =>
      show none = imLookup m key
      cases hkm : imLookup m key with
      | none => rfl
      | some v =>
        exfalso
        obtain ⟨p, hp, hp1, hp2⟩ := imLookup_some_elim him
        obtain ⟨q, hq, hq1, _⟩ := imLookup_some_elim hkm
        exact hkmem (hq1 ▸ hk p hp q (hp2 ▸ hq))

/-- Claim C10: the sort pipeline preserves content exactly — looking up any
(key, locale) cell in the rebuilt table gives exactly what the loaded file
had for it: present values are carried over unchanged and absent cells stay
absent (never filled with a default or empty string). -/
theorem C10_sort_preserves_content (cfg : List Str) (trs : LocaleStore)
    (rev : Bool) (key locale : Str) :
    (imLookup (sortRebuild trs (sortOrders cfg trs rev).1 (sortOrders cfg trs rev).2)
        key).bind (fun row => imLookup row locale)
      = storeLookup trs locale key := by
  apply sortRebuild_lookup
  · intro p hp
    cases rev with
    | false =>
      show p.1 ∈ sortedLocalesOf cfg trs
      exact mem_sortedLocalesOf.mpr (Or.inr ⟨p, hp, rfl⟩)
    | true =>
      show p.1 ∈ (sortedLocalesOf cfg trs).reverse
      rw [List.mem_reverse]
      exact mem_sortedLocalesOf.mpr (Or.inr ⟨p, hp, rfl⟩)
  · intro p hp q hq
    cases rev with
    | false =>
      show q.1 ∈ sortedKeysOf trs
      exact mem_sortedKeysOf.mpr ⟨p, hp, q, hq, rfl⟩
    | true =>
      show q.1 ∈ (sortedKeysOf trs).reverse
      rw [List.mem_reverse]
      exact mem_sortedKeysOf.mpr ⟨p, hp, q, hq, rfl⟩

/-- Claim C6: the sort pipeline's key order is the ascending sort of the
union of keys across the file's locales, its locale order is the ascending
sort of the union of config-declared and file-observed locales, the reverse
flag reverses both, the output is serialized in the source file's own
format, and the claim's example (`keys [b, a]`, `locales [fr, en]`,
`reverse = false`) yields key order `[a, b]` and locale order `[en, fr]`. -/
theorem C6_sort_orderings (cfg : List Str) (trs : LocaleStore) :
    (List.Sorted (· ≤ ·) (sortedKeysOf trs) ∧ (sortedKeysOf trs).Nodup
      ∧ (∀ x, x ∈ sortedKeysOf trs ↔ ∃ p ∈ trs, ∃ q ∈ p.2, q.1 = x))
    ∧ (List.Sorted (· ≤ ·) (sortedLocalesOf cfg trs)
      ∧ (sortedLocalesOf cfg trs).Nodup
      ∧ (∀ x, x ∈ sortedLocalesOf cfg trs ↔ x ∈ cfg ∨ ∃ p ∈ trs, p.1 = x))
    ∧ sortOrders cfg trs true
        = ((sortedLocalesOf cfg trs).reverse, (sortedKeysOf trs).reverse)
    ∧ sortOrders cfg trs false = (sortedLocalesOf cfg trs, sortedKeysOf trs)
    ∧ (∀ rev inplace e f, fmtOfExt e.ext = some f →
        i18n_sort_step cfg rev inplace e trs
          = .ok (sortOutPath inplace e,
              ⟨f, sortRebuild trs (sortOrders cfg trs rev).1 (sortOrders cfg trs rev).2⟩))
    ∧ sortOrders [] [("fr".data, [("b".data, "B".data), ("a".data, "A".data)]),
          ("en".data, [("b".data, "Bb".data), ("a".data, "Aa".data)])] false
        = (["en".data, "fr".data], ["a".data, "b".data]) := by
  refine ⟨⟨sortStr_sorted _, sortStr_nodup (List.nodup_dedup _),
      fun x => mem_sortedKeysOf⟩,
    ⟨sortStr_sorted _, sortStr_nodup (List.nodup_dedup _),
      fun x => mem_sortedLocalesOf⟩, rfl, rfl, ?_, by decide⟩
  intro rev inplace e f hf
  unfold i18n_sort_step
  rw [convert_text_eq, hf]
  rfl

/-- Concrete instantiation of `C6_sort_orderings`: sorting the claim's
example file and reserializing it as YAML. -/
theorem C6_sort_orderings_witness :
    i18n_sort_step [] false false ⟨"locales".data, "app".data, "yml".data⟩
        [("fr".data, [("b".data, "B".data), ("a".data, "A".data)]),
         ("en".data, [("b".data, "Bb".data), ("a".data, "Aa".data)])]
      = .ok (sortOutPath false ⟨"locales".data, "app".data, "yml".data⟩,
          ⟨ExportFmt.yaml, sortRebuild
            [("fr".data, [("b".data, "B".data), ("a".data, "A".data)]),
             ("en".data, [("b".data, "Bb".data), ("a".data, "Aa".data)])]
            (sortOrders []
              [("fr".data, [("b".data, "B".data), ("a".data, "A".data)]),
               ("en".data, [("b".data, "Bb".data), ("a".data, "Aa".data)])] false).1
            (sortOrders []
              [("fr".data, [("b".data, "B".data), ("a".data, "A".data)]),
               ("en".data, [("b".data, "Bb".data), ("a".data, "Aa".data)])] false).2⟩) :=
  (C6_sort_orderings []
    [("fr".data, [("b".data, "B".data), ("a".data, "A".data)]),
     ("en".data, [("b".data, "Bb".data), ("a".data, "Aa".data)])]).2.2.2.2.1
    false false ⟨"locales".data, "app".data, "yml".data⟩ ExportFmt.yaml (by decide)
